import Mathlib

/-!
Shallow embedding of the XCM v1 `multiasset` module of the polkadot
repository.  The repository ships only the rustdoc item list for the module
(`src/xcm/v1/multiasset/sidebar-items.js`), which names the types
`AssetId`, `AssetInstance`, `Fungibility`, `MultiAssetFilter`,
`WildFungibility`, `WildMultiAsset`, `MultiAsset` and `MultiAssets`; the
bodies of the operations are therefore modelled from the accompanying
specification.
-/

set_option maxHeartbeats 1000000

/-- Modelled from the spec: `Location` is an opaque, totally-ordered,
equality-comparable handle whose internal structure is outside this core;
it is modelled as a natural number. -/
abbrev Location := Nat

/-- Modelled from the spec: `AssetId` — classification of an asset being
concrete or abstract, `Concrete(Location) | Abstract(ByteSequence)`.
Byte sequences are modelled as lists of naturals below 256. -/
inductive AssetId where
  | Concrete (loc : Location)
  | Abstract (bytes : List Nat)
deriving DecidableEq

/-- Modelled from the spec: `AssetInstance` — a general identifier for an
instance of a non-fungible asset class, with variants
`Undefined | Index(u128) | Array4 | Array8 | Array16 | Array32 | Blob`. -/
inductive AssetInstance where
  | Undefined
  | Index (n : Nat)
  | Array4 (b : List Nat)
  | Array8 (b : List Nat)
  | Array16 (b : List Nat)
  | Array32 (b : List Nat)
  | Blob (b : List Nat)
deriving DecidableEq

/-- Modelled from the spec: `Fungibility` — classification of whether an
asset is fungible or not, along with a mandatory amount or instance:
`Fungible(u128) | NonFungible(AssetInstance)`. -/
inductive Fungibility where
  | Fungible (amount : Nat)
  | NonFungible (inst : AssetInstance)
deriving DecidableEq

/-- Modelled from the spec: `WildFungibility` — classification of whether an
asset is fungible or not (class tag only, no payload). -/
inductive WildFungibility where
  | Fungible
  | NonFungible
deriving DecidableEq

/-- Modelled from the spec: `MultiAsset` — one `(AssetId, Fungibility)`
pair, the atomic asset description. -/
structure MultiAsset where
  id : AssetId
  fungibility : Fungibility
deriving DecidableEq

/-- Modelled from the spec: `WildMultiAsset` — a wildcard representing a set
of assets: `All | AllOf { id, fungibility }`. -/
inductive WildMultiAsset where
  | All
  | AllOf (id : AssetId) (fungibility : WildFungibility)
deriving DecidableEq

/-- Modelled from the spec: `MultiAssetFilter` — either a definite
`MultiAssets` list or a single wildcard. -/
inductive MultiAssetFilter where
  | Definite (assets : List MultiAsset)
  | Wild (w : WildMultiAsset)
deriving DecidableEq

/-- Modelled from the spec: the error kinds surfaced by this core
(`InvalidOrDuplicateAsset`, `AmountOverflow`, `LengthExceeded`), plus
`Malformed` for the generic wire-format failures (truncated stream, invalid
byte, unknown variant tag) that the spec leaves implicit. -/
inductive XcmError where
  | InvalidOrDuplicateAsset
  | AmountOverflow
  | LengthExceeded
  | Malformed
deriving DecidableEq

/-- Modelled from the spec: three-way comparison of unsigned integers in
numeric order. -/
def cmpNat (a b : Nat) : Ordering :=
  if a < b then .lt else if a = b then .eq else .gt

/-- Modelled from the spec: lexicographic three-way comparison of byte or
numeric sequences. -/
def cmpList : List Nat → List Nat → Ordering
  | [], [] => .eq
  | [], _ :: _ => .lt
  | _ :: _, [] => .gt
  | a :: as, b :: bs => (cmpNat a b).then (cmpList as bs)

theorem cmpNat_eq_iff (a b : Nat) : cmpNat a b = .eq ↔ a = b := by
  unfold cmpNat
  split_ifs <;> simp_all <;> omega

theorem cmpNat_lt_iff (a b : Nat) : cmpNat a b = .lt ↔ a < b := by
  unfold cmpNat
  split_ifs <;> simp_all

theorem cmpNat_swap (a b : Nat) : (cmpNat a b).swap = cmpNat b a := by
  unfold cmpNat
  split_ifs <;> first | rfl | omega

theorem cmpNat_lt_trans {a b c : Nat} (h1 : cmpNat a b = .lt)
    (h2 : cmpNat b c = .lt) : cmpNat a c = .lt := by
  rw [cmpNat_lt_iff] at *
  omega

theorem cmpList_eq_iff (xs ys : List Nat) : cmpList xs ys = .eq ↔ xs = ys := by
  induction xs generalizing ys with
  | nil => cases ys <;> simp [cmpList]
  | cons a as ih =>
    cases ys with
    | nil => simp [cmpList]
    | cons b bs => simp [cmpList, Ordering.then_eq_eq, cmpNat_eq_iff, ih]

theorem cmpList_swap (xs ys : List Nat) : (cmpList xs ys).swap = cmpList ys xs := by
  induction xs generalizing ys with
  | nil => cases ys <;> rfl
  | cons a as ih =>
    cases ys with
    | nil => rfl
    | cons b bs => simp [cmpList, Ordering.swap_then, cmpNat_swap, ih]

theorem cmpList_lt_trans {xs ys zs : List Nat} (h1 : cmpList xs ys = .lt)
    (h2 : cmpList ys zs = .lt) : cmpList xs zs = .lt := by
  induction xs generalizing ys zs with
  | nil =>
    cases ys with
    | nil => cases zs <;> simp_all [cmpList]
    | cons b bs => cases zs <;> simp_all [cmpList]
  | cons a as ih =>
    cases ys with
    | nil => simp_all [cmpList]
    | cons b bs =>
      cases zs with
      | nil => simp_all [cmpList]
      | cons c cs =>
        simp only [cmpList, Ordering.then_eq_lt] at *
        rcases h1 with h1 | ⟨h1e, h1l⟩ <;> rcases h2 with h2 | ⟨h2e, h2l⟩
        · exact Or.inl (cmpNat_lt_trans h1 h2)
        · rw [cmpNat_eq_iff] at h2e
          exact Or.inl (h2e ▸ h1)
        · rw [cmpNat_eq_iff] at h1e
          exact Or.inl (h1e ▸ h2)
        · rw [cmpNat_eq_iff] at h1e h2e
          exact Or.inr ⟨by rw [cmpNat_eq_iff]; omega, ih h1l h2l⟩

/-- Modelled from the spec: variant tag of an `AssetId` (`Concrete` before
`Abstract`), the major component of its total order. -/
def AssetId.tag : AssetId → Nat
  | .Concrete _ => 0
  | .Abstract _ => 1

/-- Modelled from the spec: payload of an `AssetId` as a comparison key
(the opaque `Location` handle, or the abstract byte sequence). -/
def AssetId.key : AssetId → List Nat
  | .Concrete l => [l]
  | .Abstract bs => bs

/-- Modelled from the spec: `AssetId` ordering is variant-tag-first, then
payload order. -/
def AssetId.cmp (a b : AssetId) : Ordering :=
  (cmpNat a.tag b.tag).then (cmpList a.key b.key)

/-- Modelled from the spec: variant tag of an `AssetInstance`, in
declaration order. -/
def AssetInstance.tag : AssetInstance → Nat
  | .Undefined => 0
  | .Index _ => 1
  | .Array4 _ => 2
  | .Array8 _ => 3
  | .Array16 _ => 4
  | .Array32 _ => 5
  | .Blob _ => 6

/-- Modelled from the spec: payload of an `AssetInstance` as a comparison
key (numeric index as a one-element list, byte arrays and blobs as their
byte lists). -/
def AssetInstance.key : AssetInstance → List Nat
  | .Undefined => []
  | .Index n => [n]
  | .Array4 b => b
  | .Array8 b => b
  | .Array16 b => b
  | .Array32 b => b
  | .Blob b => b

/-- Modelled from the spec: `AssetInstance` total order — variant tag, then
payload byte/numeric order. -/
def AssetInstance.cmp (a b : AssetInstance) : Ordering :=
  (cmpNat a.tag b.tag).then (cmpList a.key b.key)

/-- Modelled from the spec: whether a `Fungibility` value is of the
fungible kind. -/
def Fungibility.isFungible : Fungibility → Bool
  | .Fungible _ => true
  | .NonFungible _ => false

/-- Modelled from the spec: the fungible amount of a `Fungibility` value
(0 for the non-fungible variant; only used under an `isFungible` guard). -/
def Fungibility.amount : Fungibility → Nat
  | .Fungible n => n
  | .NonFungible _ => 0

/-- Modelled from the spec: variant tag of a `Fungibility` value
(`Fungible` before `NonFungible`). -/
def Fungibility.tag : Fungibility → Nat
  | .Fungible _ => 0
  | .NonFungible _ => 1

/-- Modelled from the spec: payload of a `Fungibility` value as a
comparison key (the amount, or the instance as its own tag-then-key). -/
def Fungibility.key : Fungibility → List Nat
  | .Fungible n => [n]
  | .NonFungible i => i.tag :: i.key

/-- Modelled from the spec: `Fungibility` total order — variant tag, then
payload order (numeric for amounts, `AssetInstance` order for instances). -/
def Fungibility.cmp (a b : Fungibility) : Ordering :=
  (cmpNat a.tag b.tag).then (cmpList a.key b.key)

/-- Modelled from the spec: `MultiAsset` order is lexicographic on
`(AssetId, Fungibility)`. -/
def MultiAsset.cmp (a b : MultiAsset) : Ordering :=
  (AssetId.cmp a.id b.id).then (Fungibility.cmp a.fungibility b.fungibility)

/-- Modelled from the spec: the strict order on `MultiAsset` values. -/
def MultiAsset.Lt (a b : MultiAsset) : Prop :=
  MultiAsset.cmp a b = .lt

instance (a b : MultiAsset) : Decidable (MultiAsset.Lt a b) :=
  inferInstanceAs (Decidable (MultiAsset.cmp a b = .lt))

theorem tagKey_eq_iff {α : Type} (f : α → Nat) (g : α → List Nat)
    (hinj : ∀ a b : α, f a = f b → g a = g b → a = b) (a b : α) :
    (cmpNat (f a) (f b)).then (cmpList (g a) (g b)) = .eq ↔ a = b := by
  rw [Ordering.then_eq_eq, cmpNat_eq_iff, cmpList_eq_iff]
  constructor
  · rintro ⟨h1, h2⟩
    exact hinj a b h1 h2
  · rintro rfl
    exact ⟨rfl, rfl⟩

theorem thenLex_lt_trans {α β : Type} (c1 : α → α → Ordering) (c2 : β → β → Ordering)
    (h1eq : ∀ x y, c1 x y = .eq ↔ x = y)
    (h1tr : ∀ {x y z}, c1 x y = .lt → c1 y z = .lt → c1 x z = .lt)
    (h2tr : ∀ {x y z}, c2 x y = .lt → c2 y z = .lt → c2 x z = .lt)
    {a1 a2 a3 : α} {b1 b2 b3 : β}
    (h1 : (c1 a1 a2).then (c2 b1 b2) = .lt) (h2 : (c1 a2 a3).then (c2 b2 b3) = .lt) :
    (c1 a1 a3).then (c2 b1 b3) = .lt := by
  rw [Ordering.then_eq_lt] at *
  rcases h1 with h | ⟨he, hl⟩ <;> rcases h2 with h2 | ⟨h2e, h2l⟩
  · exact Or.inl (h1tr h h2)
  · rw [h1eq] at h2e
    subst h2e
    exact Or.inl h
  · rw [h1eq] at he
    subst he
    exact Or.inl h2
  · rw [h1eq] at he h2e
    subst he
    subst h2e
    exact Or.inr ⟨(h1eq _ _).2 rfl, h2tr hl h2l⟩

theorem assetId_tagKey_inj (a b : AssetId) :
    AssetId.tag a = AssetId.tag b → AssetId.key a = AssetId.key b → a = b := by
  cases a <;> cases b <;> simp [AssetId.tag, AssetId.key]

theorem assetId_cmp_eq_iff (a b : AssetId) : AssetId.cmp a b = .eq ↔ a = b :=
  tagKey_eq_iff AssetId.tag AssetId.key assetId_tagKey_inj a b

theorem assetId_cmp_swap (a b : AssetId) : (AssetId.cmp a b).swap = AssetId.cmp b a := by
  unfold AssetId.cmp
  rw [Ordering.swap_then, cmpNat_swap, cmpList_swap]

theorem assetId_cmp_lt_trans {a b c : AssetId} (h1 : AssetId.cmp a b = .lt)
    (h2 : AssetId.cmp b c = .lt) : AssetId.cmp a c = .lt :=
  thenLex_lt_trans cmpNat cmpList cmpNat_eq_iff
    (fun hx hy => cmpNat_lt_trans hx hy) (fun hx hy => cmpList_lt_trans hx hy) h1 h2

theorem assetInstance_tagKey_inj (a b : AssetInstance) :
    AssetInstance.tag a = AssetInstance.tag b →
    AssetInstance.key a = AssetInstance.key b → a = b := by
  cases a <;> cases b <;> simp [AssetInstance.tag, AssetInstance.key]

theorem assetInstance_cmp_eq_iff (a b : AssetInstance) :
    AssetInstance.cmp a b = .eq ↔ a = b :=
  tagKey_eq_iff AssetInstance.tag AssetInstance.key assetInstance_tagKey_inj a b

theorem assetInstance_cmp_swap (a b : AssetInstance) :
    (AssetInstance.cmp a b).swap = AssetInstance.cmp b a := by
  unfold AssetInstance.cmp
  rw [Ordering.swap_then, cmpNat_swap, cmpList_swap]

theorem assetInstance_cmp_lt_trans {a b c : AssetInstance}
    (h1 : AssetInstance.cmp a b = .lt) (h2 : AssetInstance.cmp b c = .lt) :
    AssetInstance.cmp a c = .lt :=
  thenLex_lt_trans cmpNat cmpList cmpNat_eq_iff
    (fun hx hy => cmpNat_lt_trans hx hy) (fun hx hy => cmpList_lt_trans hx hy) h1 h2

theorem fungibility_tagKey_inj (a b : Fungibility) :
    Fungibility.tag a = Fungibility.tag b → Fungibility.key a = Fungibility.key b → a = b := by
  cases a <;> cases b <;> simp [Fungibility.tag, Fungibility.key]
  exact assetInstance_tagKey_inj _ _

theorem fungibility_cmp_eq_iff (a b : Fungibility) : Fungibility.cmp a b = .eq ↔ a = b :=
  tagKey_eq_iff Fungibility.tag Fungibility.key fungibility_tagKey_inj a b

theorem fungibility_cmp_swap (a b : Fungibility) :
    (Fungibility.cmp a b).swap = Fungibility.cmp b a := by
  unfold Fungibility.cmp
  rw [Ordering.swap_then, cmpNat_swap, cmpList_swap]

theorem fungibility_cmp_lt_trans {a b c : Fungibility} (h1 : Fungibility.cmp a b = .lt)
    (h2 : Fungibility.cmp b c = .lt) : Fungibility.cmp a c = .lt :=
  thenLex_lt_trans cmpNat cmpList cmpNat_eq_iff
    (fun hx hy => cmpNat_lt_trans hx hy) (fun hx hy => cmpList_lt_trans hx hy) h1 h2

theorem multiAsset_cmp_eq_iff (a b : MultiAsset) : MultiAsset.cmp a b = .eq ↔ a = b := by
  unfold MultiAsset.cmp
  rw [Ordering.then_eq_eq, assetId_cmp_eq_iff, fungibility_cmp_eq_iff]
  cases a
  cases b
  simp [MultiAsset.mk.injEq]

theorem multiAsset_cmp_swap (a b : MultiAsset) :
    (MultiAsset.cmp a b).swap = MultiAsset.cmp b a := by
  unfold MultiAsset.cmp
  rw [Ordering.swap_then, assetId_cmp_swap, fungibility_cmp_swap]

theorem MultiAsset.lt_trans {a b c : MultiAsset} (h1 : MultiAsset.Lt a b)
    (h2 : MultiAsset.Lt b c) : MultiAsset.Lt a c :=
  thenLex_lt_trans AssetId.cmp Fungibility.cmp assetId_cmp_eq_iff
    (fun hx hy => assetId_cmp_lt_trans hx hy) (fun hx hy => fungibility_cmp_lt_trans hx hy) h1 h2

theorem MultiAsset.lt_irrefl (a : MultiAsset) : ¬ MultiAsset.Lt a a := by
  intro h
  rw [MultiAsset.Lt] at h
  rw [(multiAsset_cmp_eq_iff a a).2 rfl] at h
  exact absurd h (by simp)

theorem MultiAsset.lt_asymm {a b : MultiAsset} (h : MultiAsset.Lt a b) :
    ¬ MultiAsset.Lt b a := by
  intro h2
  exact MultiAsset.lt_irrefl a (MultiAsset.lt_trans h h2)

theorem MultiAsset.lt_of_ne {a b : MultiAsset} (h : a ≠ b) :
    MultiAsset.Lt a b ∨ MultiAsset.Lt b a := by
  rcases hc : MultiAsset.cmp a b with _ | _ | _
  · exact Or.inl hc
  · exact absurd ((multiAsset_cmp_eq_iff a b).1 hc) h
  · refine Or.inr ?_
    rw [MultiAsset.Lt, ← multiAsset_cmp_swap a b, hc]
    rfl

theorem MultiAsset.ne_of_lt {a b : MultiAsset} (h : MultiAsset.Lt a b) : a ≠ b := by
  rintro rfl
  exact MultiAsset.lt_irrefl a h

theorem MultiAsset.lt_iff {a b : MultiAsset} : MultiAsset.Lt a b ↔
    (AssetId.cmp a.id b.id = .lt ∨
      (a.id = b.id ∧ Fungibility.cmp a.fungibility b.fungibility = .lt)) := by
  rw [MultiAsset.Lt, MultiAsset.cmp, Ordering.then_eq_lt, assetId_cmp_eq_iff]

theorem MultiAsset.lt_of_id_lt {a b : MultiAsset} (h : AssetId.cmp a.id b.id = .lt) :
    MultiAsset.Lt a b :=
  MultiAsset.lt_iff.2 (Or.inl h)

theorem Fungibility.cmp_fungible_nonFungible (n : Nat) (i : AssetInstance) :
    Fungibility.cmp (.Fungible n) (.NonFungible i) = .lt := rfl

theorem Fungibility.nonFungible_not_lt_fungible (i : AssetInstance) (n : Nat) :
    ¬ Fungibility.cmp (.NonFungible i) (.Fungible n) = .lt := by
  intro h
  rw [show Fungibility.cmp (.NonFungible i) (.Fungible n) = .gt from rfl] at h
  exact absurd h (by simp)

/-- Modelled from the spec: `FungDistinct a b` says that `a` and `b` are
not both `Fungible` entries of the same asset class. -/
def FungDistinct (a b : MultiAsset) : Prop :=
  ¬(a.fungibility.isFungible = true ∧ b.fungibility.isFungible = true ∧ a.id = b.id)

instance (a b : MultiAsset) : Decidable (FungDistinct a b) := by
  unfold FungDistinct
  infer_instance

/-- Modelled from the spec: the strict-ascending-order invariant of a
`MultiAssets` sequence, as a proposition. -/
def SortedAsc (l : List MultiAsset) : Prop := List.Pairwise MultiAsset.Lt l

/-- Modelled from the spec: the no-duplicate-fungible-AssetId invariant of
a `MultiAssets` sequence, as a proposition. -/
def NoDupFung (l : List MultiAsset) : Prop := List.Pairwise FungDistinct l

/-- Modelled from the spec: the invariant of a canonical `MultiAssets`
collection — strictly ascending order and no duplicate fungible class. -/
def Canonical (l : List MultiAsset) : Prop := SortedAsc l ∧ NoDupFung l

/-- Modelled from the spec: executable adjacent strict-ascending-order
check on a sequence of `MultiAsset` values. -/
def sortedStrict : List MultiAsset → Bool
  | [] => true
  | [_] => true
  | a :: b :: rest => decide (MultiAsset.Lt a b) && sortedStrict (b :: rest)

/-- Modelled from the spec: executable check that no two elements of the
sequence are `Fungible` entries with the same `AssetId`. -/
def noDupFungible : List MultiAsset → Bool
  | [] => true
  | a :: rest => rest.all (fun b => decide (FungDistinct a b)) && noDupFungible rest

/-- Modelled from the spec: `MultiAssets.fromSorted(sequence)` — the
validation applied when decoding — succeeds only if the sequence already
satisfies the ordering and no-duplicate-fungible-AssetId invariants, and
returns the sequence unchanged; otherwise it fails with
`InvalidOrDuplicateAsset`.  It never sorts or deduplicates the input. -/
def MultiAssets.fromSorted (l : List MultiAsset) : Except XcmError (List MultiAsset) :=
  if sortedStrict l && noDupFungible l then Except.ok l
  else Except.error XcmError.InvalidOrDuplicateAsset

/-- Modelled from the spec: `push(asset)` inserts into a canonical
collection maintaining sort order; if the collection already holds a
`Fungible` entry with the same `AssetId` the two amounts are summed,
failing with `AmountOverflow` when the sum is not representable in 128
bits; a `NonFungible` entry identical to an existing element collapses
into it. -/
def MultiAssets.push : List MultiAsset → MultiAsset → Except XcmError (List MultiAsset)
  | [], a => Except.ok [a]
  | b :: rest, a =>
    if a.fungibility.isFungible = true ∧ b.fungibility.isFungible = true ∧ a.id = b.id then
      if a.fungibility.amount + b.fungibility.amount < 2 ^ 128 then
        Except.ok (⟨a.id, Fungibility.Fungible (a.fungibility.amount + b.fungibility.amount)⟩ :: rest)
      else
        Except.error XcmError.AmountOverflow
    else if a = b then
      Except.ok (b :: rest)
    else if MultiAsset.Lt a b then
      Except.ok (a :: b :: rest)
    else
      match MultiAssets.push rest a with
      | Except.ok r => Except.ok (b :: r)
      | Except.error e => Except.error e

/-- Modelled from the spec: push every element of a sequence, in order,
into an accumulating canonical collection. -/
def MultiAssets.pushAll (acc : List MultiAsset) : List MultiAsset → Except XcmError (List MultiAsset)
  | [] => Except.ok acc
  | a :: rest =>
    match MultiAssets.push acc a with
    | Except.ok acc2 => MultiAssets.pushAll acc2 rest
    | Except.error e => Except.error e

/-- Modelled from the spec: `fromUnsorted(sequence)` builds a canonical
collection from a sequence in any order by pushing each element into an
initially empty collection: this sorts, merges `Fungible` amounts sharing
an `AssetId` (failing with `AmountOverflow` on an unrepresentable sum) and
keeps `NonFungible` entries distinct per `AssetInstance`. -/
def MultiAssets.fromUnsorted (l : List MultiAsset) : Except XcmError (List MultiAsset) :=
  MultiAssets.pushAll [] l

/-- Modelled from the spec: the fungibility kind (fungible vs non-fungible)
of a `Fungibility` value. -/
def Fungibility.kind : Fungibility → WildFungibility
  | .Fungible _ => WildFungibility.Fungible
  | .NonFungible _ => WildFungibility.NonFungible

/-- Modelled from the spec: `WildMultiAsset.matches` — `All` matches every
asset; `AllOf{id, fungibility}` matches exactly the assets whose `AssetId`
equals `id` and whose `Fungibility` kind equals `fungibility`, ignoring
the fungible amount and the non-fungible instance. -/
def WildMultiAsset.matches : WildMultiAsset → MultiAsset → Bool
  | .All, _ => true
  | .AllOf i f, c => decide (c.id = i) && decide (c.fungibility.kind = f)

/-- Modelled from the spec: `MultiAssetFilter.matches` — `Definite(list)`
is exact value membership of the concrete asset in the list; `Wild(w)`
delegates to the wildcard. -/
def MultiAssetFilter.matches : MultiAssetFilter → MultiAsset → Bool
  | .Definite l, c => l.any (fun a => decide (a = c))
  | .Wild w, c => WildMultiAsset.matches w c

instance : IsTrans MultiAsset MultiAsset.Lt :=
  ⟨fun _ _ _ h1 h2 => MultiAsset.lt_trans h1 h2⟩

theorem sortedStrict_iff_chain (l : List MultiAsset) :
    sortedStrict l = true ↔ List.Chain' MultiAsset.Lt l := by
  match l with
  | [] => simp [sortedStrict]
  | [a] => simp [sortedStrict]
  | a :: b :: rest =>
    rw [sortedStrict, List.chain'_cons, Bool.and_eq_true, decide_eq_true_iff,
      sortedStrict_iff_chain (b :: rest)]

theorem sortedStrict_iff (l : List MultiAsset) : sortedStrict l = true ↔ SortedAsc l := by
  rw [sortedStrict_iff_chain, SortedAsc, List.chain'_iff_pairwise]

theorem noDupFungible_iff (l : List MultiAsset) : noDupFungible l = true ↔ NoDupFung l := by
  induction l with
  | nil => simp [noDupFungible, NoDupFung]
  | cons a rest ih =>
    rw [NoDupFung, List.pairwise_cons, ← NoDupFung, ← ih, noDupFungible]
    simp [List.all_eq_true]

theorem fromSorted_ok_iff (l : List MultiAsset) :
    MultiAssets.fromSorted l = Except.ok l ↔ Canonical l := by
  unfold MultiAssets.fromSorted
  rw [Canonical, ← sortedStrict_iff, ← noDupFungible_iff]
  split_ifs with h
  · simp [Bool.and_eq_true] at h
    simp [h]
  · simp [Bool.and_eq_true] at h
    constructor
    · intro hc
      exact absurd hc (by simp)
    · intro ⟨h1, h2⟩
      exact absurd (h h1) (by simp [h2])

theorem fromSorted_error_iff (l : List MultiAsset) :
    MultiAssets.fromSorted l = Except.error XcmError.InvalidOrDuplicateAsset ↔ ¬ Canonical l := by
  unfold MultiAssets.fromSorted
  rw [Canonical, ← sortedStrict_iff, ← noDupFungible_iff]
  split_ifs with h
  · simp [Bool.and_eq_true] at h
    simp [h]
  · simp [Bool.and_eq_true] at h
    constructor
    · intro _ ⟨h1, h2⟩
      exact absurd (h h1) (by simp [h2])
    · intro _
      rfl

theorem AssetId.cmp_refl (a : AssetId) : AssetId.cmp a a = .eq :=
  (assetId_cmp_eq_iff a a).2 rfl

theorem AssetId.cmp_lt_ne {a b : AssetId} (h : AssetId.cmp a b = .lt) : a ≠ b := by
  rintro rfl
  rw [AssetId.cmp_refl] at h
  exact absurd h (by simp)

theorem MultiAsset.lt_retarget {b x : MultiAsset} {i : AssetId} {s : Nat}
    (hid : b.id = i)
    (h : MultiAsset.Lt b x)
    (hx : x.fungibility.isFungible = true → ¬ x.id = i) :
    MultiAsset.Lt ⟨i, .Fungible s⟩ x := by
  rw [MultiAsset.lt_iff] at h ⊢
  rcases h with h | ⟨he, hf⟩
  · refine Or.inl ?_
    rw [show (⟨i, Fungibility.Fungible s⟩ : MultiAsset).id = i from rfl, ← hid]
    exact h
  · have hxi : x.id = i := he.symm.trans hid
    cases hxf : x.fungibility with
    | Fungible k =>
      have hxk : x.fungibility.isFungible = true := by rw [hxf]; rfl
      exact absurd hxi (hx hxk)
    | NonFungible j =>
      exact Or.inr ⟨hxi.symm, Fungibility.cmp_fungible_nonFungible s j⟩

theorem push_error {l : List MultiAsset} {a : MultiAsset} {e : XcmError}
    (h : MultiAssets.push l a = Except.error e) : e = XcmError.AmountOverflow := by
  induction l generalizing e with
  | nil => simp [MultiAssets.push] at h
  | cons b rest ih =>
    simp only [MultiAssets.push] at h
    split_ifs at h with h1 h2 h3 h4
    · simp at h
      exact h.symm
    · cases hp : MultiAssets.push rest a with
      | ok r2 => rw [hp] at h; simp at h
      | error e2 =>
        rw [hp] at h
        simp at h
        subst h
        exact ih hp

theorem push_mem {l : List MultiAsset} {a : MultiAsset} {r : List MultiAsset}
    (h : MultiAssets.push l a = Except.ok r) :
    ∀ x ∈ r, x ∈ l ∨ x = a ∨
      (a.fungibility.isFungible = true ∧ x.id = a.id ∧ x.fungibility.isFungible = true ∧
        ∃ y ∈ l, y.id = a.id ∧ y.fungibility.isFungible = true) := by
  induction l generalizing r with
  | nil =>
    simp only [MultiAssets.push] at h
    simp at h
    subst h
    intro x hx
    simp at hx
    exact Or.inr (Or.inl hx)
  | cons b rest ih =>
    simp only [MultiAssets.push] at h
    split_ifs at h with h1 h2 h3 h4
    · simp at h
      subst h
      intro x hx
      rcases List.mem_cons.1 hx with hx | hx
      · subst hx
        refine Or.inr (Or.inr ⟨h1.1, rfl, by simp [Fungibility.isFungible], b, ?_⟩)
        simp [h1.2.2.symm, h1.2.1]
      · exact Or.inl (List.mem_cons_of_mem _ hx)
    · simp at h
      subst h
      intro x hx
      exact Or.inl hx
    · simp at h
      subst h
      intro x hx
      rcases List.mem_cons.1 hx with hx | hx
      · exact Or.inr (Or.inl hx)
      · exact Or.inl hx
    · cases hp : MultiAssets.push rest a with
      | ok r2 =>
        rw [hp] at h
        simp at h
        subst h
        intro x hx
        rcases List.mem_cons.1 hx with hx | hx
        · exact Or.inl (by simp [hx])
        · rcases ih hp x hx with hh | hh | ⟨hf, hid, hxf, y, hy, hyid, hyf⟩
          · exact Or.inl (List.mem_cons_of_mem _ hh)
          · exact Or.inr (Or.inl hh)
          · exact Or.inr (Or.inr ⟨hf, hid, hxf, y, List.mem_cons_of_mem _ hy, hyid, hyf⟩)
      | error e2 =>
        rw [hp] at h
        simp at h

theorem push_canonical {l : List MultiAsset} {a : MultiAsset} {r : List MultiAsset}
    (hc : Canonical l) (h : MultiAssets.push l a = Except.ok r) : Canonical r := by
  induction l generalizing r with
  | nil =>
    simp only [MultiAssets.push] at h
    simp at h
    subst h
    exact ⟨List.pairwise_singleton _ _, List.pairwise_singleton _ _⟩
  | cons b rest ih =>
    obtain ⟨hs0, hn0⟩ := hc
    rw [SortedAsc, List.pairwise_cons] at hs0
    rw [NoDupFung, List.pairwise_cons] at hn0
    obtain ⟨hbs, hs⟩ := hs0
    obtain ⟨hbn, hn⟩ := hn0
    simp only [MultiAssets.push] at h
    split_ifs at h with h1 h2 h3 h4
    · -- merge of two fungible entries of the same class
      simp at h
      subst h
      constructor
      · rw [SortedAsc, List.pairwise_cons]
        refine ⟨fun x hx => ?_, hs⟩
        refine MultiAsset.lt_retarget h1.2.2.symm (hbs x hx) (fun hxf hxid => ?_)
        have := hbn x hx
        rw [FungDistinct] at this
        exact this ⟨h1.2.1, hxf, h1.2.2.symm.trans hxid.symm⟩
      · rw [NoDupFung, List.pairwise_cons]
        refine ⟨fun x hx => ?_, hn⟩
        rw [FungDistinct]
        rintro ⟨-, hxf, hxid⟩
        have := hbn x hx
        rw [FungDistinct] at this
        exact this ⟨h1.2.1, hxf, h1.2.2 ▸ hxid⟩
    · -- the asset is already present: collapse
      simp at h
      subst h
      exact ⟨by rw [SortedAsc, List.pairwise_cons]; exact ⟨hbs, hs⟩,
        by rw [NoDupFung, List.pairwise_cons]; exact ⟨hbn, hn⟩⟩
    · -- insert strictly before the head
      simp at h
      subst h
      constructor
      · rw [SortedAsc, List.pairwise_cons]
        refine ⟨fun x hx => ?_, List.pairwise_cons.2 ⟨hbs, hs⟩⟩
        rcases List.mem_cons.1 hx with hx | hx
        · subst hx
          exact h4
        · exact MultiAsset.lt_trans h4 (hbs x hx)
      · rw [NoDupFung, List.pairwise_cons]
        refine ⟨fun x hx => ?_, List.pairwise_cons.2 ⟨hbn, hn⟩⟩
        rcases List.mem_cons.1 hx with hx | hx
        · subst hx
          exact h1
        · rw [FungDistinct]
          rintro ⟨haf, hxf, haid⟩
          rcases MultiAsset.lt_iff.1 h4 with hab | ⟨hab, habf⟩ <;>
            rcases MultiAsset.lt_iff.1 (hbs x hx) with hbx | ⟨hbx, hbxf⟩
          · exact absurd haid (AssetId.cmp_lt_ne (assetId_cmp_lt_trans hab hbx))
          · rw [hbx] at hab
            exact absurd haid (AssetId.cmp_lt_ne hab)
          · rw [← hab] at hbx
            exact absurd haid (AssetId.cmp_lt_ne hbx)
          · refine h1 ⟨haf, ?_, hab⟩
            by_contra hbf
            cases hbv : b.fungibility with
            | Fungible k =>
              exact hbf (by rw [hbv]; rfl)
            | NonFungible j =>
              cases hxv : x.fungibility with
              | Fungible m2 =>
                rw [hbv, hxv] at hbxf
                exact Fungibility.nonFungible_not_lt_fungible j m2 hbxf
              | NonFungible j2 =>
                rw [hxv] at hxf
                exact absurd hxf (by rw [show Fungibility.isFungible (.NonFungible j2) = false from rfl]; simp)
    · -- insert into the tail
      cases hp : MultiAssets.push rest a with
      | ok r2 =>
        rw [hp] at h
        simp at h
        subst h
        have hlba : MultiAsset.Lt b a := (MultiAsset.lt_of_ne h3).resolve_left h4
        obtain ⟨hr2s, hr2n⟩ := ih ⟨hs, hn⟩ hp
        constructor
        · rw [SortedAsc, List.pairwise_cons]
          refine ⟨fun x hx => ?_, hr2s⟩
          rcases push_mem hp x hx with hh | hh | ⟨haf, hxid, hxf, y, hy, hyid, hyf⟩
          · exact hbs x hh
          · subst hh
            exact hlba
          · rcases MultiAsset.lt_iff.1 (hbs y hy) with hby | ⟨hby, hbyf⟩
            · refine MultiAsset.lt_iff.2 (Or.inl ?_)
              rw [hxid, ← hyid]
              exact hby
            · exfalso
              have hbnf : ¬ b.fungibility.isFungible = true := by
                intro hbf
                have := hbn y hy
                rw [FungDistinct] at this
                exact this ⟨hbf, hyf, hby⟩
              apply h4
              refine MultiAsset.lt_iff.2 (Or.inr ⟨by rw [← hyid, ← hby], ?_⟩)
              cases hbv : b.fungibility with
              | Fungible k => exact absurd (by rw [hbv]; rfl) hbnf
              | NonFungible j =>
                cases hav : a.fungibility with
                | Fungible m2 => exact Fungibility.cmp_fungible_nonFungible m2 j
                | NonFungible j2 => exact absurd haf (by rw [hav]; simp [Fungibility.isFungible])
        · rw [NoDupFung, List.pairwise_cons]
          refine ⟨fun x hx => ?_, hr2n⟩
          rcases push_mem hp x hx with hh | hh | ⟨haf, hxid, hxf, y, hy, hyid, hyf⟩
          · exact hbn x hh
          · subst hh
            rw [FungDistinct]
            rintro ⟨hbf, hxf, hbid⟩
            exact h1 ⟨hxf, hbf, hbid.symm⟩
          · rw [FungDistinct]
            rintro ⟨hbf, hxf2, hbid⟩
            exact h1 ⟨haf, hbf, (hbid.trans hxid).symm⟩
      | error e2 =>
        rw [hp] at h
        simp at h

/-- Modelled from the spec: the total `Fungible` amount held for one asset
class by a sequence of `MultiAsset` values. -/
def fungTotal (j : AssetId) : List MultiAsset → Nat
  | [] => 0
  | x :: rest =>
    (if x.fungibility.isFungible = true ∧ x.id = j then x.fungibility.amount else 0) +
      fungTotal j rest

theorem push_fungTotal {l : List MultiAsset} {a : MultiAsset} {r : List MultiAsset}
    (h : MultiAssets.push l a = Except.ok r) (j : AssetId) :
    fungTotal j r = fungTotal j l +
      (if a.fungibility.isFungible = true ∧ a.id = j then a.fungibility.amount else 0) := by
  induction l generalizing r with
  | nil =>
    simp only [MultiAssets.push] at h
    simp at h
    subst h
    simp [fungTotal]
  | cons b rest ih =>
    simp only [MultiAssets.push] at h
    split_ifs at h with h1 h2 h3 h4
    · simp at h
      subst h
      obtain ⟨h1a, h1b, h1id⟩ := h1
      cases hav : a.fungibility with
      | NonFungible j2 => rw [hav] at h1a; exact absurd h1a (by simp [Fungibility.isFungible])
      | Fungible an =>
        cases hbv : b.fungibility with
        | NonFungible j2 => rw [hbv] at h1b; exact absurd h1b (by simp [Fungibility.isFungible])
        | Fungible bn =>
          simp only [fungTotal, hav, hbv, Fungibility.isFungible, Fungibility.amount,
            true_and, ← h1id]
          split_ifs with hj
          · omega
          · omega
    · subst h3
      simp at h
      subst h
      have haf2 : ¬ a.fungibility.isFungible = true := fun hf => h1 ⟨hf, hf, rfl⟩
      rw [if_neg (fun hq => haf2 hq.1)]
      omega
    · simp at h
      subst h
      rw [fungTotal, fungTotal]
      ring
    · cases hp : MultiAssets.push rest a with
      | ok r2 =>
        rw [hp] at h
        simp at h
        subst h
        rw [fungTotal, ih hp, fungTotal]
        ring
      | error e2 =>
        rw [hp] at h
        simp at h

theorem push_nonFungible_mem {l : List MultiAsset} {a : MultiAsset} {r : List MultiAsset}
    (h : MultiAssets.push l a = Except.ok r) {x : MultiAsset}
    (hx : x.fungibility.isFungible = false) : x ∈ r ↔ x ∈ l ∨ x = a := by
  induction l generalizing r with
  | nil =>
    simp only [MultiAssets.push] at h
    simp at h
    subst h
    simp
  | cons b rest ih =>
    simp only [MultiAssets.push] at h
    split_ifs at h with h1 h2 h3 h4
    · simp at h
      subst h
      obtain ⟨h1a, h1b, h1id⟩ := h1
      have hxa : ¬ x = a := fun e => by rw [e, h1a] at hx; exact absurd hx (by simp)
      have hxb : ¬ x = b := fun e => by rw [e, h1b] at hx; exact absurd hx (by simp)
      have hxh : ¬ x = (⟨a.id, Fungibility.Fungible (a.fungibility.amount + b.fungibility.amount)⟩ : MultiAsset) := by
        intro e
        rw [e] at hx
        exact absurd hx (by simp [Fungibility.isFungible])
      simp [List.mem_cons, hxa, hxb, hxh]
    · subst h3
      simp at h
      subst h
      simp [List.mem_cons]
      tauto
    · simp at h
      subst h
      simp [List.mem_cons]
      tauto
    · cases hp : MultiAssets.push rest a with
      | ok r2 =>
        rw [hp] at h
        simp at h
        subst h
        rw [List.mem_cons, ih hp, List.mem_cons]
        tauto
      | error e2 =>
        rw [hp] at h
        simp at h

theorem push_insert_fungible {l1 l2 : List MultiAsset} {i : AssetId} {m n : Nat}
    (hc : Canonical (l1 ++ ⟨i, .Fungible m⟩ :: l2)) :
    MultiAssets.push (l1 ++ ⟨i, .Fungible m⟩ :: l2) ⟨i, .Fungible n⟩ =
      if n + m < 2 ^ 128 then Except.ok (l1 ++ ⟨i, .Fungible (n + m)⟩ :: l2)
      else Except.error XcmError.AmountOverflow := by
  induction l1 with
  | nil =>
    simp [MultiAssets.push, Fungibility.isFungible, Fungibility.amount]
  | cons b l1 ih =>
    obtain ⟨hs0, hn0⟩ := hc
    rw [List.cons_append, SortedAsc, List.pairwise_cons] at hs0
    rw [List.cons_append, NoDupFung, List.pairwise_cons] at hn0
    obtain ⟨hbs, hs⟩ := hs0
    obtain ⟨hbn, hn⟩ := hn0
    have hmem : (⟨i, Fungibility.Fungible m⟩ : MultiAsset) ∈ l1 ++ ⟨i, Fungibility.Fungible m⟩ :: l2 :=
      List.mem_append_right _ (List.mem_cons_self _ _)
    have hbe : MultiAsset.Lt b ⟨i, Fungibility.Fungible m⟩ := hbs _ hmem
    have hbnd := hbn _ hmem
    rw [FungDistinct] at hbnd
    have hbid : AssetId.cmp b.id i = .lt := by
      rcases MultiAsset.lt_iff.1 hbe with hq | ⟨hq, hqf⟩
      · exact hq
      · exfalso
        cases hbv : b.fungibility with
        | Fungible k => exact hbnd ⟨by rw [hbv]; rfl, rfl, hq⟩
        | NonFungible j =>
          rw [hbv] at hqf
          exact Fungibility.nonFungible_not_lt_fungible j m hqf
    simp only [List.cons_append, MultiAssets.push]
    rw [if_neg, if_neg, if_neg]
    · simp only [List.append_eq]
      rw [ih ⟨hs, hn⟩]
      split_ifs with hov <;> rfl
    · intro hlt
      rcases MultiAsset.lt_iff.1 hlt with hq | ⟨hq, hqf⟩
      · have := assetId_cmp_lt_trans hq hbid
        exact absurd rfl (AssetId.cmp_lt_ne this)
      · rw [show (⟨i, Fungibility.Fungible n⟩ : MultiAsset).id = i from rfl] at hq
        rw [← hq] at hbid
        exact absurd rfl (AssetId.cmp_lt_ne hbid)
    · intro heq
      rw [← heq] at hbnd
      exact hbnd ⟨rfl, rfl, rfl⟩
    · rintro ⟨-, hbf, hib⟩
      exact hbnd ⟨hbf, rfl, hib.symm⟩

theorem push_collapse {l : List MultiAsset} {a : MultiAsset}
    (hc : Canonical l) (haf : a.fungibility.isFungible = false) (ha : a ∈ l) :
    MultiAssets.push l a = Except.ok l := by
  induction l with
  | nil => simp at ha
  | cons b rest ih =>
    obtain ⟨hs0, hn0⟩ := hc
    rw [SortedAsc, List.pairwise_cons] at hs0
    rw [NoDupFung, List.pairwise_cons] at hn0
    obtain ⟨hbs, hs⟩ := hs0
    obtain ⟨hbn, hn⟩ := hn0
    have hnotfun : ¬ (a.fungibility.isFungible = true ∧ b.fungibility.isFungible = true ∧ a.id = b.id) := by
      rintro ⟨hf, -, -⟩
      rw [haf] at hf
      exact absurd hf (by simp)
    rcases List.mem_cons.1 ha with hab | ha2
    · simp only [MultiAssets.push]
      rw [if_neg hnotfun, if_pos hab]
    · have hlba : MultiAsset.Lt b a := hbs a ha2
      have hne : ¬ a = b := fun e => MultiAsset.lt_irrefl b (by rw [e] at hlba; exact hlba)
      have hnlt : ¬ MultiAsset.Lt a b := MultiAsset.lt_asymm hlba
      simp only [MultiAssets.push]
      rw [if_neg hnotfun, if_neg hne, if_neg hnlt, ih ⟨hs, hn⟩ ha2]

theorem pushAll_error {acc l : List MultiAsset} {e : XcmError}
    (h : MultiAssets.pushAll acc l = Except.error e) : e = XcmError.AmountOverflow := by
  induction l generalizing acc e with
  | nil => simp [MultiAssets.pushAll] at h
  | cons a rest ih =>
    simp only [MultiAssets.pushAll] at h
    cases hp : MultiAssets.push acc a with
    | ok acc2 =>
      rw [hp] at h
      exact ih h
    | error e2 =>
      rw [hp] at h
      simp at h
      subst h
      exact push_error hp

theorem pushAll_canonical {acc l r : List MultiAsset}
    (hc : Canonical acc) (h : MultiAssets.pushAll acc l = Except.ok r) : Canonical r := by
  induction l generalizing acc with
  | nil =>
    simp only [MultiAssets.pushAll] at h
    simp at h
    subst h
    exact hc
  | cons a rest ih =>
    simp only [MultiAssets.pushAll] at h
    cases hp : MultiAssets.push acc a with
    | ok acc2 =>
      rw [hp] at h
      exact ih (push_canonical hc hp) h
    | error e2 =>
      rw [hp] at h
      simp at h

theorem pushAll_fungTotal {acc l r : List MultiAsset}
    (h : MultiAssets.pushAll acc l = Except.ok r) (j : AssetId) :
    fungTotal j r = fungTotal j acc + fungTotal j l := by
  induction l generalizing acc with
  | nil =>
    simp only [MultiAssets.pushAll] at h
    simp at h
    subst h
    simp [fungTotal]
  | cons a rest ih =>
    simp only [MultiAssets.pushAll] at h
    cases hp : MultiAssets.push acc a with
    | ok acc2 =>
      rw [hp] at h
      rw [ih h, push_fungTotal hp j, fungTotal]
      ring
    | error e2 =>
      rw [hp] at h
      simp at h

theorem pushAll_nonFungible_mem {acc l r : List MultiAsset}
    (h : MultiAssets.pushAll acc l = Except.ok r) {x : MultiAsset}
    (hx : x.fungibility.isFungible = false) : x ∈ r ↔ x ∈ acc ∨ x ∈ l := by
  induction l generalizing acc with
  | nil =>
    simp only [MultiAssets.pushAll] at h
    simp at h
    subst h
    simp
  | cons a rest ih =>
    simp only [MultiAssets.pushAll] at h
    cases hp : MultiAssets.push acc a with
    | ok acc2 =>
      rw [hp] at h
      rw [ih h, push_nonFungible_mem hp hx, List.mem_cons]
      tauto
    | error e2 =>
      rw [hp] at h
      simp at h

/-- Modelled from the spec: a wire byte stream, as a list of byte values. -/
abbrev ByteStream := List Nat

/-- Modelled from the spec: read one byte from the stream; a truncated
stream or a non-byte value is a malformed encoding. -/
def decByte : ByteStream → Except XcmError (Nat × ByteStream)
  | [] => Except.error XcmError.Malformed
  | b :: s => if b < 256 then Except.ok (b, s) else Except.error XcmError.Malformed

/-- Modelled from the spec: read a fixed number of raw payload bytes. -/
def decBytes : Nat → ByteStream → Except XcmError (List Nat × ByteStream)
  | 0, s => Except.ok ([], s)
  | k + 1, s =>
    match decByte s with
    | Except.error e => Except.error e
    | Except.ok (b, s1) =>
      match decBytes k s1 with
      | Except.error e => Except.error e
      | Except.ok (bs, s2) => Except.ok (b :: bs, s2)

/-- Modelled from the spec: the value of a little-endian byte list. -/
def leVal : List Nat → Nat
  | [] => 0
  | b :: bs => b + 256 * leVal bs

/-- Modelled from the spec: fixed-width little-endian encoding of an
unsigned integer. -/
def encLE : Nat → Nat → List Nat
  | 0, _ => []
  | k + 1, v => v % 256 :: encLE k (v / 256)

/-- Modelled from the spec: read a fixed-width little-endian unsigned
integer. -/
def decLE (k : Nat) (s : ByteStream) : Except XcmError (Nat × ByteStream) :=
  match decBytes k s with
  | Except.error e => Except.error e
  | Except.ok (bs, s1) => Except.ok (leVal bs, s1)

/-- Modelled from the spec: length-prefixed encoding of a variable-length
byte sequence — one length byte, then the payload. -/
def encSeq (bs : List Nat) : ByteStream := bs.length :: bs

/-- Modelled from the spec: read a length-prefixed byte sequence whose
declared length is capped at `max`; a declared length past the cap fails
with `LengthExceeded` before the payload is read. -/
def decSeq (max : Nat) (s : ByteStream) : Except XcmError (List Nat × ByteStream) :=
  match decByte s with
  | Except.error e => Except.error e
  | Except.ok (len, s1) =>
    if len > max then Except.error XcmError.LengthExceeded
    else decBytes len s1

/-- Modelled from the spec: wire encoding of an `AssetId` — leading tag
byte, then the payload (a fixed-width `Location` handle for `Concrete`, a
length-prefixed byte sequence for `Abstract`). -/
def encAssetId : AssetId → ByteStream
  | .Concrete l => 0 :: encLE 4 l
  | .Abstract bs => 1 :: encSeq bs

/-- Modelled from the spec: decode an `AssetId`; an `Abstract` payload is
capped at `maxAbstract` bytes. -/
def decAssetId (maxAbstract : Nat) (s : ByteStream) : Except XcmError (AssetId × ByteStream) :=
  match decByte s with
  | Except.error e => Except.error e
  | Except.ok (t, s1) =>
    match t with
    | 0 =>
      match decLE 4 s1 with
      | Except.error e => Except.error e
      | Except.ok (v, s2) => Except.ok (AssetId.Concrete v, s2)
    | 1 =>
      match decSeq maxAbstract s1 with
      | Except.error e => Except.error e
      | Except.ok (bs, s2) => Except.ok (AssetId.Abstract bs, s2)
    | _ + 2 => Except.error XcmError.Malformed

/-- Modelled from the spec: wire encoding of an `AssetInstance` — leading
tag byte, then the payload in declared order. -/
def encAssetInstance : AssetInstance → ByteStream
  | .Undefined => [0]
  | .Index n => 1 :: encLE 16 n
  | .Array4 b => 2 :: b
  | .Array8 b => 3 :: b
  | .Array16 b => 4 :: b
  | .Array32 b => 5 :: b
  | .Blob b => 6 :: encSeq b

/-- Modelled from the spec: decode an `AssetInstance`; a `Blob` payload is
capped at `maxBlob` bytes. -/
def decAssetInstance (maxBlob : Nat) (s : ByteStream) : Except XcmError (AssetInstance × ByteStream) :=
  match decByte s with
  | Except.error e => Except.error e
  | Except.ok (t, s1) =>
    match t with
    | 0 => Except.ok (AssetInstance.Undefined, s1)
    | 1 =>
      match decLE 16 s1 with
      | Except.error e => Except.error e
      | Except.ok (v, s2) => Except.ok (AssetInstance.Index v, s2)
    | 2 =>
      match decBytes 4 s1 with
      | Except.error e => Except.error e
      | Except.ok (bs, s2) => Except.ok (AssetInstance.Array4 bs, s2)
    | 3 =>
      match decBytes 8 s1 with
      | Except.error e => Except.error e
      | Except.ok (bs, s2) => Except.ok (AssetInstance.Array8 bs, s2)
    | 4 =>
      match decBytes 16 s1 with
      | Except.error e => Except.error e
      | Except.ok (bs, s2) => Except.ok (AssetInstance.Array16 bs, s2)
    | 5 =>
      match decBytes 32 s1 with
      | Except.error e => Except.error e
      | Except.ok (bs, s2) => Except.ok (AssetInstance.Array32 bs, s2)
    | 6 =>
      match decSeq maxBlob s1 with
      | Except.error e => Except.error e
      | Except.ok (bs, s2) => Except.ok (AssetInstance.Blob bs, s2)
    | _ + 7 => Except.error XcmError.Malformed

/-- Modelled from the spec: wire encoding of a `Fungibility` value —
leading tag byte, then the 128-bit amount or the instance. -/
def encFungibility : Fungibility → ByteStream
  | .Fungible n => 0 :: encLE 16 n
  | .NonFungible i => 1 :: encAssetInstance i

/-- Modelled from the spec: decode a `Fungibility` value. -/
def decFungibility (maxBlob : Nat) (s : ByteStream) : Except XcmError (Fungibility × ByteStream) :=
  match decByte s with
  | Except.error e => Except.error e
  | Except.ok (t, s1) =>
    match t with
    | 0 =>
      match decLE 16 s1 with
      | Except.error e => Except.error e
      | Except.ok (v, s2) => Except.ok (Fungibility.Fungible v, s2)
    | 1 =>
      match decAssetInstance maxBlob s1 with
      | Except.error e => Except.error e
      | Except.ok (i, s2) => Except.ok (Fungibility.NonFungible i, s2)
    | _ + 2 => Except.error XcmError.Malformed

/-- Modelled from the spec: wire encoding of a `MultiAsset` — its fields
in declared order. -/
def encMultiAsset (a : MultiAsset) : ByteStream :=
  encAssetId a.id ++ encFungibility a.fungibility

/-- Modelled from the spec: decode a `MultiAsset`. -/
def decMultiAsset (maxAbstract maxBlob : Nat) (s : ByteStream) : Except XcmError (MultiAsset × ByteStream) :=
  match decAssetId maxAbstract s with
  | Except.error e => Except.error e
  | Except.ok (i, s1) =>
    match decFungibility maxBlob s1 with
    | Except.error e => Except.error e
    | Except.ok (f, s2) => Except.ok (⟨i, f⟩, s2)

/-- Modelled from the spec: wire encoding of a `MultiAssets` collection —
a length-prefixed sequence of `MultiAsset` encodings in canonical order. -/
def encMultiAssets (l : List MultiAsset) : ByteStream :=
  l.length :: (l.map encMultiAsset).flatten

/-- Modelled from the spec: decode a counted sequence of `MultiAsset`
values. -/
def decMultiAssetSeq (maxAbstract maxBlob : Nat) : Nat → ByteStream → Except XcmError (List MultiAsset × ByteStream)
  | 0, s => Except.ok ([], s)
  | k + 1, s =>
    match decMultiAsset maxAbstract maxBlob s with
    | Except.error e => Except.error e
    | Except.ok (a, s1) =>
      match decMultiAssetSeq maxAbstract maxBlob k s1 with
      | Except.error e => Except.error e
      | Except.ok (as, s2) => Except.ok (a :: as, s2)

/-- Modelled from the spec: decode a `MultiAssets` collection — read the
counted sequence, then re-derive the ordering and duplicate check via
`fromSorted`, failing the whole decode on violation with no repair. -/
def decMultiAssets (maxAbstract maxBlob : Nat) (s : ByteStream) : Except XcmError (List MultiAsset × ByteStream) :=
  match decByte s with
  | Except.error e => Except.error e
  | Except.ok (cnt, s1) =>
    match decMultiAssetSeq maxAbstract maxBlob cnt s1 with
    | Except.error e => Except.error e
    | Except.ok (l, s2) =>
      match MultiAssets.fromSorted l with
      | Except.error e => Except.error e
      | Except.ok v => Except.ok (v, s2)

theorem decByte_rt {s : ByteStream} {b : Nat} {r : ByteStream}
    (h : decByte s = Except.ok (b, r)) : b :: r = s ∧ b < 256 := by
  cases s with
  | nil => simp [decByte] at h
  | cons x s2 =>
    simp only [decByte] at h
    split_ifs at h with hx
    simp at h
    obtain ⟨hb, hr⟩ := h
    subst hb
    subst hr
    exact ⟨rfl, hx⟩

theorem decBytes_rt {k : Nat} {s : ByteStream} {bs : List Nat} {r : ByteStream}
    (h : decBytes k s = Except.ok (bs, r)) :
    bs ++ r = s ∧ bs.length = k ∧ ∀ x ∈ bs, x < 256 := by
  induction k generalizing s bs r with
  | zero =>
    simp only [decBytes] at h
    simp at h
    obtain ⟨hb, hr⟩ := h
    subst hb
    subst hr
    simp
  | succ k ih =>
    simp only [decBytes] at h
    cases hd : decByte s with
    | error e => rw [hd] at h; simp at h
    | ok p =>
      obtain ⟨b, s1⟩ := p
      rw [hd] at h
      simp only [] at h
      cases hd2 : decBytes k s1 with
      | error e => rw [hd2] at h; simp at h
      | ok q =>
        obtain ⟨bs2, s2⟩ := q
        rw [hd2] at h
        simp at h
        obtain ⟨hb, hr⟩ := h
        subst hb
        subst hr
        obtain ⟨hcons, hlt⟩ := decByte_rt hd
        obtain ⟨happ, hlen, hbyte⟩ := ih hd2
        refine ⟨by rw [List.cons_append, happ, hcons], by simp [hlen], ?_⟩
        intro x hx
        rcases List.mem_cons.1 hx with hx | hx
        · subst hx
          exact hlt
        · exact hbyte x hx

theorem encLE_leVal {bs : List Nat} (hb : ∀ x ∈ bs, x < 256) :
    encLE bs.length (leVal bs) = bs := by
  induction bs with
  | nil => rfl
  | cons b bs ih =>
    rw [List.length_cons, encLE, leVal]
    have hb256 : b < 256 := hb b (List.mem_cons_self _ _)
    have h1 : (b + 256 * leVal bs) % 256 = b := by omega
    have h2 : (b + 256 * leVal bs) / 256 = leVal bs := by omega
    rw [h1, h2, ih (fun x hx => hb x (List.mem_cons_of_mem _ hx))]

theorem decLE_rt {k : Nat} {s : ByteStream} {v : Nat} {r : ByteStream}
    (h : decLE k s = Except.ok (v, r)) : encLE k v ++ r = s := by
  unfold decLE at h
  cases hd : decBytes k s with
  | error e => rw [hd] at h; simp at h
  | ok p =>
    obtain ⟨bs, s1⟩ := p
    rw [hd] at h
    simp at h
    obtain ⟨hv, hr⟩ := h
    subst hv
    subst hr
    obtain ⟨happ, hlen, hbyte⟩ := decBytes_rt hd
    rw [← hlen, encLE_leVal hbyte]
    exact happ

theorem decSeq_rt {max : Nat} {s : ByteStream} {bs : List Nat} {r : ByteStream}
    (h : decSeq max s = Except.ok (bs, r)) :
    encSeq bs ++ r = s ∧ bs.length ≤ max := by
  unfold decSeq at h
  cases hd : decByte s with
  | error e => rw [hd] at h; simp at h
  | ok p =>
    obtain ⟨len, s1⟩ := p
    rw [hd] at h
    simp only [] at h
    split_ifs at h with hlen
    obtain ⟨hcons, hlt⟩ := decByte_rt hd
    obtain ⟨happ, hl, hbyte⟩ := decBytes_rt h
    constructor
    · rw [encSeq, hl, List.cons_append, happ, hcons]
    · omega

theorem decAssetId_rt {maxA : Nat} {s : ByteStream} {v : AssetId} {r : ByteStream}
    (h : decAssetId maxA s = Except.ok (v, r)) : encAssetId v ++ r = s := by
  unfold decAssetId at h
  cases hd : decByte s with
  | error e => rw [hd] at h; simp at h
  | ok p =>
    obtain ⟨t, s1⟩ := p
    rw [hd] at h
    simp only [] at h
    obtain ⟨hcons, hlt⟩ := decByte_rt hd
    rcases t with _ | _ | t
    · cases hl : decLE 4 s1 with
      | error e => rw [hl] at h; simp at h
      | ok q =>
        obtain ⟨loc, s2⟩ := q
        rw [hl] at h
        simp at h
        obtain ⟨hv, hr⟩ := h
        subst hv
        subst hr
        rw [encAssetId, List.cons_append, decLE_rt hl]
        exact hcons
    · cases hl : decSeq maxA s1 with
      | error e => rw [hl] at h; simp at h
      | ok q =>
        obtain ⟨bs, s2⟩ := q
        rw [hl] at h
        simp at h
        obtain ⟨hv, hr⟩ := h
        subst hv
        subst hr
        rw [encAssetId, List.cons_append, (decSeq_rt hl).1]
        exact hcons
    · simp at h

theorem decAssetInstance_rt {maxB : Nat} {s : ByteStream} {v : AssetInstance} {r : ByteStream}
    (h : decAssetInstance maxB s = Except.ok (v, r)) : encAssetInstance v ++ r = s := by
  unfold decAssetInstance at h
  cases hd : decByte s with
  | error e => rw [hd] at h; simp at h
  | ok p =>
    obtain ⟨t, s1⟩ := p
    rw [hd] at h
    simp only [] at h
    obtain ⟨hcons, hlt⟩ := decByte_rt hd
    rcases t with _ | _ | _ | _ | _ | _ | _ | t
    · simp at h
      obtain ⟨hv, hr⟩ := h
      subst hv
      subst hr
      rw [encAssetInstance, List.cons_append, List.nil_append]
      exact hcons
    · cases hl : decLE 16 s1 with
      | error e => rw [hl] at h; simp at h
      | ok q =>
        obtain ⟨n, s2⟩ := q
        rw [hl] at h
        simp at h
        obtain ⟨hv, hr⟩ := h
        subst hv
        subst hr
        rw [encAssetInstance, List.cons_append, decLE_rt hl]
        exact hcons
    · cases hl : decBytes 4 s1 with
      | error e => rw [hl] at h; simp at h
      | ok q =>
        obtain ⟨bs, s2⟩ := q
        rw [hl] at h
        simp at h
        obtain ⟨hv, hr⟩ := h
        subst hv
        subst hr
        rw [encAssetInstance, List.cons_append, (decBytes_rt hl).1]
        exact hcons
    · cases hl : decBytes 8 s1 with
      | error e => rw [hl] at h; simp at h
      | ok q =>
        obtain ⟨bs, s2⟩ := q
        rw [hl] at h
        simp at h
        obtain ⟨hv, hr⟩ := h
        subst hv
        subst hr
        rw [encAssetInstance, List.cons_append, (decBytes_rt hl).1]
        exact hcons
    · cases hl : decBytes 16 s1 with
      | error e => rw [hl] at h; simp at h
      | ok q =>
        obtain ⟨bs, s2⟩ := q
        rw [hl] at h
        simp at h
        obtain ⟨hv, hr⟩ := h
        subst hv
        subst hr
        rw [encAssetInstance, List.cons_append, (decBytes_rt hl).1]
        exact hcons
    · cases hl : decBytes 32 s1 with
      | error e => rw [hl] at h; simp at h
      | ok q =>
        obtain ⟨bs, s2⟩ := q
        rw [hl] at h
        simp at h
        obtain ⟨hv, hr⟩ := h
        subst hv
        subst hr
        rw [encAssetInstance, List.cons_append, (decBytes_rt hl).1]
        exact hcons
    · cases hl : decSeq maxB s1 with
      | error e => rw [hl] at h; simp at h
      | ok q =>
        obtain ⟨bs, s2⟩ := q
        rw [hl] at h
        simp at h
        obtain ⟨hv, hr⟩ := h
        subst hv
        subst hr
        rw [encAssetInstance, List.cons_append, (decSeq_rt hl).1]
        exact hcons
    · simp at h

theorem decFungibility_rt {maxB : Nat} {s : ByteStream} {v : Fungibility} {r : ByteStream}
    (h : decFungibility maxB s = Except.ok (v, r)) : encFungibility v ++ r = s := by
  unfold decFungibility at h
  cases hd : decByte s with
  | error e => rw [hd] at h; simp at h
  | ok p =>
    obtain ⟨t, s1⟩ := p
    rw [hd] at h
    simp only [] at h
    obtain ⟨hcons, hlt⟩ := decByte_rt hd
    rcases t with _ | _ | t
    · cases hl : decLE 16 s1 with
      | error e => rw [hl] at h; simp at h
      | ok q =>
        obtain ⟨n, s2⟩ := q
        rw [hl] at h
        simp at h
        obtain ⟨hv, hr⟩ := h
        subst hv
        subst hr
        rw [encFungibility, List.cons_append, decLE_rt hl]
        exact hcons
    · cases hl : decAssetInstance maxB s1 with
      | error e => rw [hl] at h; simp at h
      | ok q =>
        obtain ⟨i, s2⟩ := q
        rw [hl] at h
        simp at h
        obtain ⟨hv, hr⟩ := h
        subst hv
        subst hr
        rw [encFungibility, List.cons_append, decAssetInstance_rt hl]
        exact hcons
    · simp at h

theorem decMultiAsset_rt {maxA maxB : Nat} {s : ByteStream} {v : MultiAsset} {r : ByteStream}
    (h : decMultiAsset maxA maxB s = Except.ok (v, r)) : encMultiAsset v ++ r = s := by
  unfold decMultiAsset at h
  cases hd : decAssetId maxA s with
  | error e => rw [hd] at h; simp at h
  | ok p =>
    obtain ⟨i, s1⟩ := p
    rw [hd] at h
    simp only [] at h
    cases hf : decFungibility maxB s1 with
    | error e => rw [hf] at h; simp at h
    | ok q =>
      obtain ⟨f, s2⟩ := q
      rw [hf] at h
      simp at h
      obtain ⟨hv, hr⟩ := h
      subst hv
      subst hr
      simp only [encMultiAsset]
      rw [List.append_assoc, decFungibility_rt hf]
      exact decAssetId_rt hd

theorem decMultiAssetSeq_rt {maxA maxB : Nat} {k : Nat} {s : ByteStream}
    {l : List MultiAsset} {r : ByteStream}
    (h : decMultiAssetSeq maxA maxB k s = Except.ok (l, r)) :
    (l.map encMultiAsset).flatten ++ r = s ∧ l.length = k := by
  induction k generalizing s l r with
  | zero =>
    simp only [decMultiAssetSeq] at h
    simp at h
    obtain ⟨hl, hr⟩ := h
    subst hl
    subst hr
    simp
  | succ k ih =>
    simp only [decMultiAssetSeq] at h
    cases hd : decMultiAsset maxA maxB s with
    | error e => rw [hd] at h; simp at h
    | ok p =>
      obtain ⟨a, s1⟩ := p
      rw [hd] at h
      simp only [] at h
      cases hq : decMultiAssetSeq maxA maxB k s1 with
      | error e => rw [hq] at h; simp at h
      | ok q =>
        obtain ⟨l2, s2⟩ := q
        rw [hq] at h
        simp at h
        obtain ⟨hl, hr⟩ := h
        subst hl
        subst hr
        obtain ⟨happ, hlen⟩ := ih hq
        constructor
        · rw [List.map_cons, List.flatten_cons, List.append_assoc, happ]
          exact decMultiAsset_rt hd
        · simp [hlen]

theorem fromSorted_ok_eq {l v : List MultiAsset}
    (h : MultiAssets.fromSorted l = Except.ok v) : v = l := by
  unfold MultiAssets.fromSorted at h
  split_ifs at h
  simp at h
  exact h.symm

theorem decMultiAssets_rt {maxA maxB : Nat} {s : ByteStream}
    {v : List MultiAsset} {r : ByteStream}
    (h : decMultiAssets maxA maxB s = Except.ok (v, r)) : encMultiAssets v ++ r = s := by
  unfold decMultiAssets at h
  cases hd : decByte s with
  | error e => rw [hd] at h; simp at h
  | ok p =>
    obtain ⟨cnt, s1⟩ := p
    rw [hd] at h
    simp only [] at h
    obtain ⟨hcons, hlt⟩ := decByte_rt hd
    cases hq : decMultiAssetSeq maxA maxB cnt s1 with
    | error e => rw [hq] at h; simp at h
    | ok q =>
      obtain ⟨l, s2⟩ := q
      rw [hq] at h
      simp only [] at h
      cases hv : MultiAssets.fromSorted l with
      | error e => rw [hv] at h; simp at h
      | ok v2 =>
        rw [hv] at h
        simp at h
        obtain ⟨hvv, hr⟩ := h
        subst hvv
        subst hr
        have hveq : v2 = l := fromSorted_ok_eq hv
        subst hveq
        obtain ⟨happ, hlen⟩ := decMultiAssetSeq_rt hq
        rw [encMultiAssets, hlen, List.cons_append, happ]
        exact hcons

instance (l : List MultiAsset) : Decidable (SortedAsc l) :=
  decidable_of_iff (sortedStrict l = true) (sortedStrict_iff l)

instance (l : List MultiAsset) : Decidable (NoDupFung l) :=
  decidable_of_iff (noDupFungible l = true) (noDupFungible_iff l)

instance (l : List MultiAsset) : Decidable (Canonical l) :=
  inferInstanceAs (Decidable (SortedAsc l ∧ NoDupFung l))

theorem push_nil_eq (a : MultiAsset) : MultiAssets.push [] a = Except.ok [a] := rfl

theorem pushAll_cons_eq (acc : List MultiAsset) (a : MultiAsset) (rest : List MultiAsset) :
    MultiAssets.pushAll acc (a :: rest) =
      match MultiAssets.push acc a with
      | Except.ok acc2 => MultiAssets.pushAll acc2 rest
      | Except.error e => Except.error e := rfl

theorem Fungibility.cmp_nonFungible_nonFungible (x y : AssetInstance) :
    Fungibility.cmp (.NonFungible x) (.NonFungible y) = AssetInstance.cmp x y := rfl

theorem noDupFung_of_all_nonFungible {l : List MultiAsset}
    (h : ∀ x ∈ l, x.fungibility.isFungible = false) : NoDupFung l := by
  induction l with
  | nil => exact List.Pairwise.nil
  | cons a rest ih =>
    rw [NoDupFung, List.pairwise_cons]
    constructor
    · intro b hb
      rw [FungDistinct]
      rintro ⟨haf, -, -⟩
      rw [h a (List.mem_cons_self _ _)] at haf
      exact absurd haf (by simp)
    · exact ih (fun x hx => h x (List.mem_cons_of_mem _ hx))

/-- C1: for every input sequence, `MultiAssets.fromSorted` (the validation
applied when decoding) succeeds if and only if the sequence is already in
strictly ascending `MultiAsset` order and contains no two `Fungible`
entries with the same `AssetId`; on any violation it fails with
`InvalidOrDuplicateAsset`; it never silently sorts or deduplicates the
input (any success returns the input unchanged). -/
theorem claim_C1 (l : List MultiAsset) :
    (MultiAssets.fromSorted l = Except.ok l ↔ SortedAsc l ∧ NoDupFung l) ∧
    (∀ v, MultiAssets.fromSorted l = Except.ok v → v = l) ∧
    (¬(SortedAsc l ∧ NoDupFung l) →
      MultiAssets.fromSorted l = Except.error XcmError.InvalidOrDuplicateAsset) :=
  ⟨fromSorted_ok_iff l, fun _ hv => fromSorted_ok_eq hv,
    fun hnc => (fromSorted_error_iff l).2 hnc⟩

/-- Witness for C1 at concrete inputs: the empty sequence is accepted, and
a sequence with two `Fungible` entries of the same class is rejected with
`InvalidOrDuplicateAsset`. -/
theorem claim_C1_wit :
    MultiAssets.fromSorted
        [⟨AssetId.Concrete 0, Fungibility.Fungible 1⟩,
         ⟨AssetId.Concrete 0, Fungibility.Fungible 2⟩] =
      Except.error XcmError.InvalidOrDuplicateAsset ∧
    ([⟨AssetId.Concrete 0, Fungibility.Fungible 1⟩] : List MultiAsset) =
      [⟨AssetId.Concrete 0, Fungibility.Fungible 1⟩] :=
  ⟨(claim_C1 [⟨AssetId.Concrete 0, Fungibility.Fungible 1⟩,
      ⟨AssetId.Concrete 0, Fungibility.Fungible 2⟩]).2.2 (by decide),
   (claim_C1 [⟨AssetId.Concrete 0, Fungibility.Fungible 1⟩]).2.1
      [⟨AssetId.Concrete 0, Fungibility.Fungible 1⟩] rfl⟩

/-- C2: `WildMultiAsset.All` matches every concrete asset; and
`AllOf{id, f}` matches a concrete asset exactly when its `AssetId` equals
`id` and the kind of its `Fungibility` (fungible vs non-fungible) equals
`f`, ignoring the fungible amount and the non-fungible instance. -/
theorem claim_C2 :
    (∀ c : MultiAsset, WildMultiAsset.matches WildMultiAsset.All c = true) ∧
    (∀ (i : AssetId) (f : WildFungibility) (c : MultiAsset),
      WildMultiAsset.matches (WildMultiAsset.AllOf i f) c = true ↔
        c.id = i ∧ c.fungibility.kind = f) := by
  constructor
  · intro c
    rfl
  · intro i f c
    simp [WildMultiAsset.matches]

/-- C3: `MultiAssetFilter.Definite(list)` matches a concrete asset exactly
when the asset is equal by value to some element of the list — exact
membership, with amount and instance compared exactly. -/
theorem claim_C3 (l : List MultiAsset) (c : MultiAsset) :
    MultiAssetFilter.matches (MultiAssetFilter.Definite l) c = true ↔ c ∈ l := by
  rw [MultiAssetFilter.matches, List.any_eq_true]
  constructor
  · rintro ⟨a, ha, he⟩
    rw [decide_eq_true_iff] at he
    exact he ▸ ha
  · intro hc
    exact ⟨c, hc, by simp⟩

/-- C7: the `MultiAsset` order (lexicographic on `(AssetId, Fungibility)`,
tag-major then payload-minor) is a strict total order: for distinct values
exactly one of `a < b` and `b < a` holds, and the relation is transitive. -/
theorem claim_C7 :
    (∀ a b : MultiAsset, a ≠ b → (MultiAsset.Lt a b ↔ ¬ MultiAsset.Lt b a)) ∧
    (∀ a b c : MultiAsset, MultiAsset.Lt a b → MultiAsset.Lt b c → MultiAsset.Lt a c) := by
  constructor
  · intro a b hne
    constructor
    · exact fun h => MultiAsset.lt_asymm h
    · intro hn
      rcases MultiAsset.lt_of_ne hne with h | h
      · exact h
      · exact absurd h hn
  · exact fun _ _ _ h1 h2 => MultiAsset.lt_trans h1 h2

/-- Witness for C7 at concrete inputs: trichotomy for two distinct assets
and transitivity along a concrete chain. -/
theorem claim_C7_wit :
    (MultiAsset.Lt ⟨AssetId.Concrete 0, Fungibility.Fungible 1⟩
        ⟨AssetId.Concrete 1, Fungibility.Fungible 1⟩ ↔
      ¬ MultiAsset.Lt ⟨AssetId.Concrete 1, Fungibility.Fungible 1⟩
        ⟨AssetId.Concrete 0, Fungibility.Fungible 1⟩) ∧
    MultiAsset.Lt ⟨AssetId.Concrete 0, Fungibility.Fungible 1⟩
      ⟨AssetId.Concrete 2, Fungibility.Fungible 1⟩ :=
  ⟨claim_C7.1 _ _ (by decide),
   claim_C7.2 ⟨AssetId.Concrete 0, Fungibility.Fungible 1⟩
     ⟨AssetId.Concrete 1, Fungibility.Fungible 1⟩
     ⟨AssetId.Concrete 2, Fungibility.Fungible 1⟩ (by decide) (by decide)⟩

/-- C10: the duplicate restriction applies only to fungible entries — any
strictly ascending sequence of `NonFungible` entries is accepted by
`fromSorted` even when `AssetId`s repeat; in particular two `NonFungible`
entries sharing an `AssetId` with different instances (in instance order)
form a valid collection. -/
theorem claim_C10 :
    (∀ l : List MultiAsset, SortedAsc l →
      (∀ x ∈ l, x.fungibility.isFungible = false) →
      MultiAssets.fromSorted l = Except.ok l) ∧
    (∀ (i : AssetId) (x y : AssetInstance), AssetInstance.cmp x y = .lt →
      MultiAssets.fromSorted
          [⟨i, .NonFungible x⟩, ⟨i, .NonFungible y⟩] =
        Except.ok [⟨i, .NonFungible x⟩, ⟨i, .NonFungible y⟩]) := by
  have hmain : ∀ l : List MultiAsset, SortedAsc l →
      (∀ x ∈ l, x.fungibility.isFungible = false) →
      MultiAssets.fromSorted l = Except.ok l :=
    fun l hs hnf => (fromSorted_ok_iff l).2 ⟨hs, noDupFung_of_all_nonFungible hnf⟩
  refine ⟨hmain, fun i x y hxy => hmain _ ?_ ?_⟩
  · rw [SortedAsc]
    refine List.pairwise_cons.2 ⟨?_, List.pairwise_singleton _ _⟩
    intro b hb
    rw [List.mem_singleton] at hb
    subst hb
    exact MultiAsset.lt_iff.2 (Or.inr ⟨rfl, by rw [Fungibility.cmp_nonFungible_nonFungible]; exact hxy⟩)
  · intro z hz
    rcases List.mem_cons.1 hz with hz | hz
    · subst hz
      rfl
    · rw [List.mem_singleton] at hz
      subst hz
      rfl

/-- Witness for C10 at a concrete input: two non-fungible instances of the
same concrete asset class decode-validate successfully. -/
theorem claim_C10_wit :
    MultiAssets.fromSorted
        [⟨AssetId.Concrete 0, Fungibility.NonFungible (AssetInstance.Index 0)⟩,
         ⟨AssetId.Concrete 0, Fungibility.NonFungible (AssetInstance.Index 1)⟩] =
      Except.ok
        [⟨AssetId.Concrete 0, Fungibility.NonFungible (AssetInstance.Index 0)⟩,
         ⟨AssetId.Concrete 0, Fungibility.NonFungible (AssetInstance.Index 1)⟩] :=
  claim_C10.2 (AssetId.Concrete 0) (AssetInstance.Index 0) (AssetInstance.Index 1) (by decide)

/-- C4: `MultiAssets.fromUnsorted` canonicalizes a sequence given in any
order: any success is strictly ascending and passes `fromSorted`
validation unchanged (so `Fungible` amounts sharing an `AssetId` have been
merged), the total `Fungible` amount of every asset class is preserved,
the set of `NonFungible` entries is kept exactly (distinct per
`AssetInstance`), and the only possible failure is `AmountOverflow` —
never an ordering error. -/
theorem claim_C4 (l : List MultiAsset) :
    (∀ e, MultiAssets.fromUnsorted l = Except.error e → e = XcmError.AmountOverflow) ∧
    (∀ r, MultiAssets.fromUnsorted l = Except.ok r →
      MultiAssets.fromSorted r = Except.ok r ∧
      (∀ j, fungTotal j r = fungTotal j l) ∧
      (∀ x : MultiAsset, x.fungibility.isFungible = false → (x ∈ r ↔ x ∈ l))) := by
  constructor
  · intro e he
    exact pushAll_error he
  · intro r hr
    have hcan : Canonical r := pushAll_canonical ⟨List.Pairwise.nil, List.Pairwise.nil⟩ hr
    refine ⟨(fromSorted_ok_iff r).2 hcan, fun j => ?_, fun x hx => ?_⟩
    · rw [pushAll_fungTotal hr j]
      simp [fungTotal]
    · rw [pushAll_nonFungible_mem hr hx]
      simp

/-- Witness for C4 at a concrete input: an out-of-order two-element
sequence is canonicalized and its result validates unchanged. -/
theorem claim_C4_wit :
    MultiAssets.fromSorted
        [⟨AssetId.Concrete 0, Fungibility.Fungible 1⟩,
         ⟨AssetId.Concrete 1, Fungibility.Fungible 2⟩] =
      Except.ok
        [⟨AssetId.Concrete 0, Fungibility.Fungible 1⟩,
         ⟨AssetId.Concrete 1, Fungibility.Fungible 2⟩] :=
  ((claim_C4 [⟨AssetId.Concrete 1, Fungibility.Fungible 2⟩,
      ⟨AssetId.Concrete 0, Fungibility.Fungible 1⟩]).2
    [⟨AssetId.Concrete 0, Fungibility.Fungible 1⟩,
     ⟨AssetId.Concrete 1, Fungibility.Fungible 2⟩] rfl).1

/-- C5: pushing a `MultiAsset` into a canonical collection yields a
canonical (hence strictly ascending) collection; if a `Fungible` entry
with the same `AssetId` is already held, the two amounts are summed into
that one entry in place; a `NonFungible` entry identical to an existing
element collapses into it, leaving the collection unchanged. -/
theorem claim_C5 :
    (∀ (l r : List MultiAsset) (a : MultiAsset), Canonical l →
      MultiAssets.push l a = Except.ok r → Canonical r) ∧
    (∀ (l1 l2 : List MultiAsset) (i : AssetId) (m n : Nat),
      Canonical (l1 ++ ⟨i, .Fungible m⟩ :: l2) → n + m < 2 ^ 128 →
      MultiAssets.push (l1 ++ ⟨i, .Fungible m⟩ :: l2) ⟨i, .Fungible n⟩ =
        Except.ok (l1 ++ ⟨i, .Fungible (n + m)⟩ :: l2)) ∧
    (∀ (l : List MultiAsset) (a : MultiAsset), Canonical l →
      a.fungibility.isFungible = false → a ∈ l →
      MultiAssets.push l a = Except.ok l) :=
  ⟨fun _ _ _ hc h => push_canonical hc h,
   fun _ _ _ _ _ hc hov => by rw [push_insert_fungible hc, if_pos hov],
   fun _ _ hc haf ha => push_collapse hc haf ha⟩

/-- Witness for C5 at concrete inputs: an insertion stays canonical, a
same-class fungible push merges the amounts, and re-pushing a held
non-fungible entry leaves the collection unchanged. -/
theorem claim_C5_wit :
    Canonical [⟨AssetId.Concrete 0, Fungibility.Fungible 5⟩,
        ⟨AssetId.Concrete 1, Fungibility.Fungible 3⟩] ∧
    MultiAssets.push [⟨AssetId.Concrete 0, Fungibility.Fungible 5⟩]
        ⟨AssetId.Concrete 0, Fungibility.Fungible 3⟩ =
      Except.ok [⟨AssetId.Concrete 0, Fungibility.Fungible 8⟩] ∧
    MultiAssets.push [⟨AssetId.Concrete 0, Fungibility.NonFungible AssetInstance.Undefined⟩]
        ⟨AssetId.Concrete 0, Fungibility.NonFungible AssetInstance.Undefined⟩ =
      Except.ok [⟨AssetId.Concrete 0, Fungibility.NonFungible AssetInstance.Undefined⟩] :=
  ⟨claim_C5.1 [⟨AssetId.Concrete 0, Fungibility.Fungible 5⟩]
      [⟨AssetId.Concrete 0, Fungibility.Fungible 5⟩, ⟨AssetId.Concrete 1, Fungibility.Fungible 3⟩]
      ⟨AssetId.Concrete 1, Fungibility.Fungible 3⟩ (by decide) rfl,
   claim_C5.2.1 [] [] (AssetId.Concrete 0) 5 3 (by decide) (by norm_num),
   claim_C5.2.2 [⟨AssetId.Concrete 0, Fungibility.NonFungible AssetInstance.Undefined⟩]
      ⟨AssetId.Concrete 0, Fungibility.NonFungible AssetInstance.Undefined⟩
      (by decide) rfl (by simp)⟩

/-- C6: merging `Fungible(MAX)` with `Fungible(1)` for the same `AssetId`
fails with `AmountOverflow` — via `push` on a canonical collection holding
the `MAX` entry, and via `fromUnsorted` on the two-element sequence; the
merged amount is never wrapped modulo `2 ^ 128` and no default value is
returned. -/
theorem claim_C6 :
    (∀ (l1 l2 : List MultiAsset) (i : AssetId),
      Canonical (l1 ++ ⟨i, .Fungible (2 ^ 128 - 1)⟩ :: l2) →
      MultiAssets.push (l1 ++ ⟨i, .Fungible (2 ^ 128 - 1)⟩ :: l2) ⟨i, .Fungible 1⟩ =
        Except.error XcmError.AmountOverflow) ∧
    (∀ i : AssetId,
      MultiAssets.fromUnsorted [⟨i, .Fungible (2 ^ 128 - 1)⟩, ⟨i, .Fungible 1⟩] =
        Except.error XcmError.AmountOverflow) := by
  have hone : (1 : Nat) ≤ 2 ^ 128 := Nat.one_le_two_pow
  have hpushMax : ∀ i : AssetId,
      MultiAssets.push [⟨i, .Fungible (2 ^ 128 - 1)⟩] ⟨i, .Fungible 1⟩ =
        Except.error XcmError.AmountOverflow := by
    intro i
    have hc : Canonical ([] ++ (⟨i, .Fungible (2 ^ 128 - 1)⟩ : MultiAsset) :: []) :=
      ⟨List.pairwise_singleton _ _, List.pairwise_singleton _ _⟩
    have := @push_insert_fungible [] [] i (2 ^ 128 - 1) 1 hc
    rw [if_neg (by omega)] at this
    simpa using this
  constructor
  · intro l1 l2 i hc
    rw [push_insert_fungible hc, if_neg (by omega)]
  · intro i
    unfold MultiAssets.fromUnsorted
    rw [pushAll_cons_eq, push_nil_eq]
    simp only []
    rw [pushAll_cons_eq, hpushMax i]

/-- Witness for C6 at a concrete input: the overflowing push on a
concrete asset class fails with `AmountOverflow`. -/
theorem claim_C6_wit :
    MultiAssets.push [⟨AssetId.Concrete 0, Fungibility.Fungible (2 ^ 128 - 1)⟩]
        ⟨AssetId.Concrete 0, Fungibility.Fungible 1⟩ =
      Except.error XcmError.AmountOverflow := by
  have := claim_C6.1 [] [] (AssetId.Concrete 0) (by decide)
  simpa using this

/-- C8: for every byte stream that decodes successfully into a
`MultiAssets` value, re-encoding the decoded value (followed by the
remaining stream) reproduces exactly the original bytes — the decoder
performs no renormalization (no sorting, deduplication or merging) on
accepted input. -/
theorem claim_C8 (maxA maxB : Nat) (s : ByteStream) (v : List MultiAsset) (r : ByteStream)
    (h : decMultiAssets maxA maxB s = Except.ok (v, r)) :
    encMultiAssets v ++ r = s :=
  decMultiAssets_rt h

/-- Witness for C8 at a concrete stream: one concrete fungible asset
decodes and re-encodes to exactly the original bytes. -/
theorem claim_C8_wit :
    encMultiAssets [⟨AssetId.Concrete 7, Fungibility.Fungible 5⟩] ++ [] =
      [1, 0, 7, 0, 0, 0, 0, 5, 0, 0, 0, 0, 0, 0, 0, 0, 0, 0, 0, 0, 0, 0, 0] :=
  claim_C8 8 8 [1, 0, 7, 0, 0, 0, 0, 5, 0, 0, 0, 0, 0, 0, 0, 0, 0, 0, 0, 0, 0, 0, 0]
    [⟨AssetId.Concrete 7, Fungibility.Fungible 5⟩] [] rfl

/-- C9: decoding a variable-length payload — an `Abstract` `AssetId` byte
sequence or a `Blob` `AssetInstance` byte sequence — fails with
`LengthExceeded` whenever the declared payload length exceeds the fixed
maximum, including the length exactly one byte past the maximum. -/
theorem claim_C9 :
    (∀ (maxA L : Nat) (s : ByteStream), L < 256 → L > maxA →
      decAssetId maxA (1 :: L :: s) = Except.error XcmError.LengthExceeded) ∧
    (∀ (maxB L : Nat) (s : ByteStream), L < 256 → L > maxB →
      decAssetInstance maxB (6 :: L :: s) = Except.error XcmError.LengthExceeded) := by
  have hseq : ∀ (max L : Nat) (s : ByteStream), L < 256 → L > max →
      decSeq max (L :: s) = Except.error XcmError.LengthExceeded := by
    intro max L s hL hgt
    unfold decSeq
    rw [show decByte (L :: s) = Except.ok (L, s) from by simp [decByte, hL]]
    simp only []
    rw [if_pos hgt]
  constructor
  · intro maxA L s hL hgt
    unfold decAssetId
    rw [show decByte (1 :: L :: s) = Except.ok (1, L :: s) from by simp [decByte]]
    simp only []
    rw [hseq maxA L s hL hgt]
  · intro maxB L s hL hgt
    unfold decAssetInstance
    rw [show decByte (6 :: L :: s) = Except.ok (6, L :: s) from by simp [decByte]]
    simp only []
    rw [hseq maxB L s hL hgt]

/-- Witness for C9 at concrete inputs: a declared length one byte past a
maximum of 3 is rejected with `LengthExceeded`, for both the `Abstract`
payload and the `Blob` payload. -/
theorem claim_C9_wit :
    decAssetId 3 [1, 4] = Except.error XcmError.LengthExceeded ∧
    decAssetInstance 3 [6, 4] = Except.error XcmError.LengthExceeded :=
  ⟨claim_C9.1 3 4 [] (by decide) (by decide),
   claim_C9.2 3 4 [] (by decide) (by decide)⟩
